import Mathlib

/-!
Verification of the LecRef session runtime against its specification.

The definitions below are shallow embeddings of the Python sources:
* `services/cache.py`       → `TermCache` (ordered association list models
  `collections.OrderedDict`; the front is least-recently-used, the back most-
  recently-used).
* `services/smallest_service.py` (`SmallestSession._receiver`) → `receiverStep`.
* `services/extractor.py` (`analyze_utterance`) → `analyzeInput`, `parseEmphasis`.
* `services/gemini_info_service.py` → `auto_define`, `auto_define_batch`,
  `deep_research` (the remote LLM call is abstracted as an oracle
  `String → Option String` giving the stripped response text, `none` on
  failure or empty response).
* `routers/ws.py` (`_run_pipeline`, `process_utterances`, `send_json`) →
  `run_pipeline`, `schedStep`/`runSched`, `send_json`.

Machine floats (`time.time()` instants, emphasis levels) are modelled as `ℚ`;
Python character strings as `String` (slicing acts on the `List Char` data).
Whitespace is modelled by `Char.isWhitespace` and lower-casing by
`Char.toLower`; all concrete inputs used below are plain ASCII, where these
agree with Python's `str.strip`/`str.lower`/regex `\s`.
-/

namespace LecRef

/-- Collapse every maximal whitespace run to a single space
(the effect of `re.sub(r"\s+", " ", s)`); `prevWS` records whether the
previous character was part of a whitespace run. -/
def collapseWSAux (prevWS : Bool) : List Char → List Char
  | [] => []
  | c :: cs =>
    if c.isWhitespace then
      if prevWS then collapseWSAux true cs else ' ' :: collapseWSAux true cs
    else c :: collapseWSAux false cs

/-- Collapse whitespace runs: `re.sub(r"\s+", " ", s)`. -/
def collapseWS (l : List Char) : List Char := collapseWSAux false l

/-- Python `str.strip()` on a character list. -/
def pyStrip (l : List Char) : List Char :=
  ((l.dropWhile Char.isWhitespace).reverse.dropWhile Char.isWhitespace).reverse

/-- Python `str.lower()` on a character list. -/
def pyLower (l : List Char) : List Char := l.map Char.toLower

/-- Python `s.strip()` on a string. -/
def pyStripStr (s : String) : String := ⟨pyStrip s.data⟩

/-- Embeds `TermCache._normalise`: `re.sub(r"\s+", " ", term.strip().lower())`. -/
def normalise (term : String) : String :=
  ⟨collapseWS (pyLower (pyStrip term.data))⟩

/-- Embeds `services/cache.py` `TermCache`: `collections.OrderedDict` bounded at
`maxsize`, modelled as an association list ordered least- to most-recently
used. -/
structure TermCache (α : Type) where
  entries : List (String × α)
  maxsize : Nat

/-- Embeds `contains`: `self._normalise(term) in self._cache`.  The body contains no
mutation, so the state component is returned unchanged. -/
def TermCache.contains (c : TermCache α) (term : String) : Bool × TermCache α :=
  (c.entries.any (fun p => p.1 == normalise term), c)

/-- Embeds `get`: on a hit, `move_to_end(key)` and return the value; on a miss return
`None` leaving the dict untouched. -/
def TermCache.get (c : TermCache α) (term : String) : Option α × TermCache α :=
  let key := normalise term
  match c.entries.find? (fun p => p.1 == key) with
  | some kv =>
      (some kv.2, ⟨c.entries.filter (fun p => !(p.1 == key)) ++ [kv], c.maxsize⟩)
  | none => (none, c)

/-- Embeds `put`: `self._cache[key] = value`; `move_to_end(key)`; if over capacity,
`popitem(last=False)` drops the least-recently-used (front) entry. -/
def TermCache.put (c : TermCache α) (term : String) (v : α) : TermCache α :=
  let key := normalise term
  let es := c.entries.filter (fun p => !(p.1 == key)) ++ [(key, v)]
  ⟨if es.length > c.maxsize then es.drop 1 else es, c.maxsize⟩

/-- Embeds `filter_new`: `[t for t in terms if not self.contains(t)]`; `contains`
does not mutate, so neither does `filter_new`. -/
def TermCache.filter_new (c : TermCache α) (terms : List String) :
    List String × TermCache α :=
  (terms.filter (fun t => !(c.contains t).1), c)

/-- One parsed upstream STT frame: `transcript` and `is_final`
(`payload.get("is_final", True)`). -/
structure Frame where
  transcript : String
  is_final : Bool
deriving DecidableEq, Repr

/-- One iteration of `SmallestSession._receiver` acting on
`(full_transcript, utterances published so far)`: empty transcripts are
skipped; a final frame appends `" " + text` to the rolling transcript
(or `text` when the transcript is empty) and publishes the text to the
utterance queue; interim frames touch neither. -/
def receiverStep (acc : String × List String) (fr : Frame) : String × List String :=
  if fr.transcript = "" then acc
  else if fr.is_final then
    ((if acc.1 = "" then fr.transcript else acc.1 ++ " " ++ fr.transcript),
      acc.2 ++ [fr.transcript])
  else acc

/-- Run the receiver over a list of frames from a fresh session
(`_full_transcript = ""`). -/
def runReceiver (frames : List Frame) : String × List String :=
  frames.foldl receiverStep ("", [])

/-- Whitespace-join, the semantics of Python `" ".join(xs)`. -/
def joinWS : List String → String
  | [] => ""
  | [s] => s
  | s :: rest => s ++ " " ++ joinWS rest

/-- The constant `MIN_PIPELINE_INTERVAL = 20` seconds. -/
def MIN_PIPELINE_INTERVAL : ℚ := 20

/-- Local state of `process_utterances`.  Wall-clock instants (`time.time()`
floats) are modelled as rationals. -/
structure SchedState where
  buffer : List String
  last_process_time : ℚ
  last_pipeline_time : ℚ
  retry_pending : Bool
  retry_after : ℚ
deriving DecidableEq, Repr

/-- External happenings of one `while` iteration: the current wall clock, the
optional utterance dequeued before the 1s timeout, the value
`get_context_tail(300)` would return, and whether `_run_pipeline` would
succeed if invoked. -/
structure LoopInput where
  now : ℚ
  utterance : Option String
  contextTail : String
  pipelineOk : Bool
deriving DecidableEq, Repr

/-- A record of one `_run_pipeline` call made by the loop. -/
structure Invocation where
  time : ℚ
  combined : String
  normalTrigger : Bool
  retryTrigger : Bool
  ok : Bool
deriving DecidableEq, Repr

/-- The dequeue step: `if utterance.strip(): utterance_buffer.append(utterance)`
(no-op on queue timeout). -/
def ingest (s : SchedState) (u : Option String) : SchedState :=
  match u with
  | some t => if pyStripStr t = "" then s else { s with buffer := s.buffer ++ [t] }
  | none => s

/-- One iteration of the scheduler loop after the dequeue step: computes the
normal and retry triggers, and on firing composes `combined`, clears the
buffer, stamps both times with `now`, and updates the retry flags from the
pipeline outcome (`retry_after = now + 20` on failure). -/
def schedStep (s0 : SchedState) (inp : LoopInput) : SchedState × Option Invocation :=
  let s := ingest s0 inp.utterance
  let shouldProcess := !s.buffer.isEmpty
      && decide (inp.now - s.last_process_time ≥ MIN_PIPELINE_INTERVAL)
      && decide (inp.now - s.last_pipeline_time ≥ MIN_PIPELINE_INTERVAL)
  let shouldRetry := s.retry_pending && decide (inp.now ≥ s.retry_after)
  if shouldProcess || shouldRetry then
    let combined := if s.buffer.isEmpty then inp.contextTail else joinWS s.buffer
    ({ buffer := [],
       last_process_time := inp.now,
       last_pipeline_time := inp.now,
       retry_pending := !inp.pipelineOk,
       retry_after := if inp.pipelineOk then s.retry_after else inp.now + 20 },
     some ⟨inp.now, combined, shouldProcess, shouldRetry, inp.pipelineOk⟩)
  else (s, none)

/-- The scheduler loop over a whole list of iteration inputs, collecting the
pipeline invocations it makes in order. -/
def runSched (s : SchedState) : List LoopInput → SchedState × List Invocation
  | [] => (s, [])
  | inp :: rest =>
    match schedStep s inp with
    | (s1, none) => runSched s1 rest
    | (s1, some inv) =>
      let (s2, invs) := runSched s1 rest
      (s2, inv :: invs)

/-- States that the invocations are spaced w.r.t. `t`, the time of the most recent previous
invocation: every normally-triggered invocation starts at least
`MIN_PIPELINE_INTERVAL` after its predecessor. -/
def SpacedFrom (t : ℚ) : List Invocation → Prop
  | [] => True
  | inv :: rest =>
      (inv.normalTrigger = true → inv.time - t ≥ MIN_PIPELINE_INTERVAL)
        ∧ SpacedFrom inv.time rest

/-- One term reported by the analysis: `{"term": ..., "type": ...}`. -/
structure TermInfo where
  term : String
  ttype : String
deriving DecidableEq, Repr

/-- The dictionary returned by `analyze_utterance` on success.  The adapter
maps falsy (`None` or empty) `topic` / `takeaway` / `summary` to `None`,
modelled here as `none`. -/
structure Analysis where
  terms : List TermInfo
  topic : Option String
  emphasis_level : ℚ
  takeaway : Option String
  summary : Option String
deriving DecidableEq, Repr

/-- A JSON value in the `emphasis_level` position as far as `float()` is
concerned: a numeric value, or something `float()` rejects. -/
inductive JsonNum where
  | num (q : ℚ)
  | nonNumeric
deriving DecidableEq, Repr

/-- Embeds the emphasis handling of `analyze_utterance`: `float(emphasis)` when present,
`0.5` when missing, and `0.5` again when `float` raises
`ValueError`/`TypeError`.  No range check is performed. -/
def parseEmphasis : Option JsonNum → ℚ
  | none => 1/2
  | some (.num q) => q
  | some .nonNumeric => 1/2

/-- The transcript slice `analyze_utterance` embeds into its prompt:
`utterance[:1500]` (Python slicing by code point). -/
def analyzeInput (u : String) : String := ⟨u.data.take 1500⟩

/-- Modelled from the spec: "the most recent ≈1,500 characters", i.e. the
LAST `n` characters of the input — the comparison definition for C6. -/
def lastChars (n : Nat) (u : String) : String := ⟨u.data.drop (u.data.length - n)⟩

/-- A successful definition / deep-research record from
`gemini_info_service.py`. -/
structure DefRecord where
  term : String
  content : String
  badge_type : String
deriving DecidableEq, Repr

/-- Embeds the `type_map.get(item.type, "concept")` of `auto_define_batch`. -/
def typeMap (t : String) : String :=
  if t = "person" then "person" else if t = "event" then "event" else "concept"

/-- Embeds `auto_define(term, context_tail)`: `None` for a blank term; otherwise ask
the model (abstracted as `oracle`, already stripped) and reject empty
responses; on success the record carries the term unchanged and
`badge_type = "concept"`. -/
def auto_define (oracle : String → Option String) (term : String) : Option DefRecord :=
  if pyStripStr term = "" then none
  else
    match oracle term with
    | none => none
    | some content => if content = "" then none else some ⟨term, content, "concept"⟩

/-- Embeds `auto_define_batch`: one `auto_define` per item, failures dropped, and on
success the badge is re-derived from the item's declared type. -/
def auto_define_batch (oracle : String → Option String)
    (terms : List TermInfo) : List DefRecord :=
  terms.filterMap (fun it =>
    (auto_define oracle it.term).map (fun r => { r with badge_type := typeMap it.ttype }))

/-- Embeds `deep_research(term, context)`: `None` for a blank term or empty/failed
response; on success the record carries the term unchanged. -/
def deep_research (oracle : String → Option String) (term : String) : Option DefRecord :=
  if pyStripStr term = "" then none
  else
    match oracle term with
    | none => none
    | some content => if content = "" then none else some ⟨term, content, "concept"⟩

/-- Outbound events sent through `send_json`. -/
inductive Event where
  | topicUpdate (topic : String) (emphasis : ℚ)
  | newTakeaway (text : String)
  | summaryUpdate (summary : String)
  | newCard (term : String)
  | deepResearchResult (term : String)
deriving DecidableEq, Repr

/-- Observable steps of one pipeline invocation in program order: store
writes and outbound events. -/
inductive Action where
  | saveTakeaway (text : String) (ts : Nat)
  | saveSummary (summary : String)
  | saveCard (kind : String) (term : String) (content : String)
      (badge : String) (ts : Nat)
  | emit (e : Event)
deriving DecidableEq, Repr

/-- Everything `_run_pipeline` consumes from outside the session caches: the
analysis result (`none` models a raised/failed `analyze_utterance`), the two
LLM oracles, the snapshots `ts = elapsed_seconds()` and
`context_tail(500)`, and the `time.time()` read before the deep-research
throttle check. -/
structure PipelineEnv where
  analysis : Option Analysis
  defineOracle : String → Option String
  researchOracle : String → Option String
  ts : Nat
  now : ℚ

/-- The session-level mutable state the pipeline touches: the term cache,
`deep_research_cache` (a set of `strip().lower()` keys, insertion order kept)
and `last_deep_research_time`. -/
structure SessionCaches where
  termCache : TermCache DefRecord
  deepResearchCache : List String
  lastDeepResearchTime : ℚ

/-- Step 2 of `_run_pipeline`: `if analysis["topic"]:` emit `topic_update`
with the unvalidated emphasis. -/
def topicActs (a : Analysis) : List Action :=
  match a.topic with
  | some t => if t = "" then [] else [.emit (.topicUpdate t a.emphasis_level)]
  | none => []

/-- Step 3: persist the takeaway, then emit `new_takeaway`. -/
def takeawayActs (ts : Nat) (a : Analysis) : List Action :=
  match a.takeaway with
  | some tk => if tk = "" then [] else [.saveTakeaway tk ts, .emit (.newTakeaway tk)]
  | none => []

/-- Step 4: emit `summary_update` FIRST, then persist the summary (source
order, lines 249–253 of `routers/ws.py`). -/
def summaryActs (a : Analysis) : List Action :=
  match a.summary with
  | some s => if s = "" then [] else [.emit (.summaryUpdate s), .saveSummary s]
  | none => []

/-- The `for res in results` loop of step 5: `term_cache.put`, then
`_save_card(kind="auto_define")`, then emit `new_card`. -/
def defineLoop (ts : Nat) (cache : TermCache DefRecord) :
    List DefRecord → TermCache DefRecord × List Action
  | [] => (cache, [])
  | r :: rs =>
    let c1 := cache.put r.term r
    let (c2, acts) := defineLoop ts c1 rs
    (c2, .saveCard "auto_define" r.term r.content r.badge_type ts
          :: .emit (.newCard r.term) :: acts)

/-- Step 5 of `_run_pipeline`: filter the analyzed terms through the term
cache, auto-define the new ones, and run the result loop. -/
def termStep (env : PipelineEnv) (cache : TermCache DefRecord) (a : Analysis) :
    TermCache DefRecord × List Action :=
  if a.terms = [] then (cache, [])
  else
    let newTermStrs := (cache.filter_new (a.terms.map (·.term))).1
    let newTermDicts := a.terms.filter (fun t => newTermStrs.contains t.term)
    if newTermDicts = [] then (cache, [])
    else defineLoop env.ts cache (auto_define_batch env.defineOracle newTermDicts)

/-- Stable sort by decreasing string length
(`sorted(..., key=len, reverse=True)`). -/
def insertDescLen (x : String) : List String → List String
  | [] => [x]
  | y :: ys => if y.length > x.length then y :: insertDescLen x ys else x :: y :: ys

/-- Stable descending-length sort. -/
def sortDescLen : List String → List String
  | [] => []
  | x :: xs => insertDescLen x (sortDescLen xs)

/-- Deep-research candidates in priority order: the topic when its emphasis
exceeds `0.6`, then the analyzed terms by decreasing length. -/
def drCandidates (a : Analysis) : List String :=
  (match a.topic with
   | some t => if t = "" then [] else if a.emphasis_level > 3/5 then [t] else []
   | none => [])
  ++ (if a.terms = [] then [] else sortDescLen (a.terms.map (·.term)))

/-- Embeds `key = c.strip().lower()` — NOTE: no internal-whitespace collapsing, in
contrast to `TermCache._normalise`. -/
def drKey (c : String) : String := ⟨pyLower (pyStrip c.data)⟩

/-- Step 6 of `_run_pipeline` (throttled deep research). -/
def deepResearchStep (env : PipelineEnv) (a : Analysis) (st : SessionCaches) :
    SessionCaches × List Action :=
  if env.now - st.lastDeepResearchTime ≥ 30 then
    match (drCandidates a).find? (fun c => !(st.deepResearchCache.contains (drKey c))) with
    | some target =>
      let st1 : SessionCaches :=
        { st with lastDeepResearchTime := env.now,
                  deepResearchCache := st.deepResearchCache ++ [drKey target] }
      match deep_research env.researchOracle target with
      | some res =>
        (st1, [.saveCard "deep_research" res.term res.content "concept" env.ts,
               .emit (.deepResearchResult res.term)])
      | none => (st1, [])
    | none => (st, [])
  else (st, [])

/-- Embeds `_run_pipeline(utterance)`: `False` when `analyze_utterance` fails;
otherwise the topic / takeaway / summary / cards / deep-research steps in
source order, returning the success flag, the updated session caches, and
the trace of store writes and events. -/
def run_pipeline (env : PipelineEnv) (st : SessionCaches) :
    Bool × SessionCaches × List Action :=
  match env.analysis with
  | none => (false, st, [])
  | some a =>
    let (cache1, cardActs) := termStep env st.termCache a
    let st1 : SessionCaches := { st with termCache := cache1 }
    let (st2, drActs) := deepResearchStep env a st1
    (true, st2,
      topicActs a ++ takeawayActs env.ts a ++ summaryActs a ++ cardActs ++ drActs)

/-- A sequence of pipeline invocations of one session, threading the session
caches, collecting each invocation's trace. -/
def runPipelines (st : SessionCaches) : List PipelineEnv → SessionCaches × List (List Action)
  | [] => (st, [])
  | env :: envs =>
    let (_, st1, acts) := run_pipeline env st
    let (st2, rest) := runPipelines st1 envs
    (st2, acts :: rest)

/-- Terms of the auto-define cards persisted in a trace. -/
def autoDefineTerms (acts : List Action) : List String :=
  acts.filterMap (fun a =>
    match a with
    | .saveCard "auto_define" t _ _ _ => some t
    | _ => none)

/-- Terms of the deep-research cards persisted in a trace. -/
def deepResearchTerms (acts : List Action) : List String :=
  acts.filterMap (fun a =>
    match a with
    | .saveCard "deep_research" t _ _ _ => some t
    | _ => none)

/-- The claim's ordering property as stated: scanning the trace left to
right, every artifact event (`new_takeaway`, `summary_update`, `new_card`,
`deep_research_result`) must be preceded by its store write. -/
def correspondingSave (seen : List Action) : Event → Bool
  | .topicUpdate _ _ => true
  | .newTakeaway t => seen.any (fun a =>
      match a with
      | .saveTakeaway t' _ => t == t'
      | _ => false)
  | .summaryUpdate s => seen.any (fun a =>
      match a with
      | .saveSummary s' => s == s'
      | _ => false)
  | .newCard t => seen.any (fun a =>
      match a with
      | .saveCard k t' _ _ _ => k == "auto_define" && t == t'
      | _ => false)
  | .deepResearchResult t => seen.any (fun a =>
      match a with
      | .saveCard k t' _ _ _ => k == "deep_research" && t == t'
      | _ => false)

/-- Auxiliary scan for `savesBeforeEvents`. -/
def savesBeforeEventsAux (seen : List Action) : List Action → Bool
  | [] => true
  | .emit e :: rest =>
      correspondingSave seen e && savesBeforeEventsAux (seen ++ [.emit e]) rest
  | a :: rest => savesBeforeEventsAux (seen ++ [a]) rest

/-- The property that every store write completes before the corresponding outbound event":
the ordering property claimed for all four artifact kinds. -/
def savesBeforeEvents (acts : List Action) : Bool := savesBeforeEventsAux [] acts

/-- What the code actually guarantees: takeaways and both card kinds are
saved immediately before their event, while `summary_update` is emitted
immediately BEFORE the summary store write. -/
def artifactOrderOk : List Action → Bool
  | [] => true
  | .emit (.topicUpdate _ _) :: rest => artifactOrderOk rest
  | .saveTakeaway t _ :: .emit (.newTakeaway t') :: rest =>
      (t == t') && artifactOrderOk rest
  | .emit (.summaryUpdate s) :: .saveSummary s' :: rest =>
      (s == s') && artifactOrderOk rest
  | .saveCard "auto_define" t _ _ _ :: .emit (.newCard t') :: rest =>
      (t == t') && artifactOrderOk rest
  | .saveCard "deep_research" t _ _ _ :: .emit (.deepResearchResult t') :: rest =>
      (t == t') && artifactOrderOk rest
  | _ => false

/-- C5 counterexample input: an analysis bearing only a summary. -/
def envSummaryOnly : PipelineEnv :=
  { analysis := some ⟨[], none, 1/2, none, some "live"⟩,
    defineOracle := fun _ => none,
    researchOracle := fun _ => none,
    ts := 0, now := 0 }

/-- The empty session caches. -/
def stEmpty : SessionCaches := ⟨⟨[], 512⟩, [], 0⟩

/-- C8 counterexample input: the model reports emphasis `1.5` with a topic. -/
def envEmphasisOOB : PipelineEnv :=
  { analysis := some ⟨[], some "Transformers", 3/2, none, none⟩,
    defineOracle := fun _ => none,
    researchOracle := fun _ => none,
    ts := 0, now := 0 }

/-- C4 counterexample inputs: two analyses whose single terms differ only in
internal whitespace. -/
def aDR1 : Analysis := ⟨[⟨"a  b", "concept"⟩], none, 1/2, none, none⟩

/-- Second analysis for the C4 counterexample. -/
def aDR2 : Analysis := ⟨[⟨"a b", "concept"⟩], none, 1/2, none, none⟩

/-- First pipeline environment for the C4 counterexample (defines fail,
research succeeds, throttle open). -/
def envDR1 : PipelineEnv := ⟨some aDR1, fun _ => none, fun _ => some "r1", 0, 100⟩

/-- Second pipeline environment for the C4 counterexample, 100 s later. -/
def envDR2 : PipelineEnv := ⟨some aDR2, fun _ => none, fun _ => some "r2", 0, 200⟩

/-- Trace of the first C4 counterexample invocation. -/
def actsDR1 : List Action :=
  [.saveCard "deep_research" "a  b" "r1" "concept" 0,
   .emit (.deepResearchResult "a  b")]

/-- Trace of the second C4 counterexample invocation. -/
def actsDR2 : List Action :=
  [.saveCard "deep_research" "a b" "r2" "concept" 0,
   .emit (.deepResearchResult "a b")]

/-- Session caches after the first C4 counterexample invocation. -/
def stDR1 : SessionCaches := ⟨⟨[], 512⟩, ["a  b"], 100⟩

/-- Session caches after the second C4 counterexample invocation. -/
def stDR2 : SessionCaches := ⟨⟨[], 512⟩, ["a  b", "a b"], 200⟩

/-- Total number of auto-define cards across a session's invocation traces. -/
def totalAutoLen (traces : List (List Action)) : Nat :=
  (traces.map (fun t => (autoDefineTerms t).length)).sum

/-- C3 inputs: one analysis reporting two terms that normalize identically. -/
def aAD : Analysis := ⟨[⟨"Foo", "concept"⟩, ⟨"foo", "concept"⟩], none, 1/2, none, none⟩

/-- C3 pipeline environment: definitions succeed, research throttled shut. -/
def envAD : PipelineEnv := ⟨some aAD, fun _ => some "d", fun _ => none, 0, 0⟩

/-- Term cache after the C3 run: one key `"foo"`, last writer wins. -/
def cacheAD : TermCache DefRecord := ⟨[("foo", ⟨"foo", "d", "concept"⟩)], 512⟩

/-- Session caches after the C3 run. -/
def stAD1 : SessionCaches := ⟨cacheAD, [], 0⟩

/-- Trace of the C3 run: two auto-define cards. -/
def actsAD : List Action :=
  [.saveCard "auto_define" "Foo" "d" "concept" 0, .emit (.newCard "Foo"),
   .saveCard "auto_define" "foo" "d" "concept" 0, .emit (.newCard "foo")]

/-- A 1501-character transcript whose newest character is `'Z'`. -/
def badTranscript : String := ⟨List.replicate 1500 'a' ++ ['Z']⟩

/-- Whether an `await websocket.send_text(...)` raises. -/
inductive WriteOutcome where
  | ok
  | error
deriving DecidableEq, Repr

/-- The session-controller state C9 is about: the `session_active` flag and
whether the background tasks have been cancelled. -/
structure CtrlState where
  session_active : Bool
  tasks_cancelled : Bool
deriving DecidableEq, Repr

/-- Embeds `send_json` in `websocket_endpoint`: `try: await websocket.send_text(...)
except Exception: pass` — a failed write is swallowed; the function returns
whether the payload was delivered and leaves the session state untouched. -/
def send_json (w : WriteOutcome) (s : CtrlState) : Bool × CtrlState :=
  match w with
  | .ok => (true, s)
  | .error => (false, s)

/-- The `finally` block of `websocket_endpoint` (lines 469–484): clear
`session_active` and cancel the background tasks. -/
def teardownSession (s : CtrlState) : CtrlState :=
  { s with session_active := false, tasks_cancelled := true }

/-- C10 — `contains` and `filter_new` never modify the cache: contents and
recency order are identical before and after; `filter_new` returns the input
terms in original order keeping exactly those whose normalised form is not a
cache key; `get` on a miss also leaves the cache unchanged. -/
theorem termCache_contains_filter_new_frame {α : Type}
    (c : TermCache α) (t : String) (ts : List String) :
    (c.contains t).2 = c
      ∧ (c.filter_new ts).2 = c
      ∧ (c.filter_new ts).1.Sublist ts
      ∧ (∀ u, u ∈ (c.filter_new ts).1 ↔ u ∈ ts ∧ (c.contains u).1 = false)
      ∧ ((c.get t).1 = none → (c.get t).2 = c) := by
  refine ⟨rfl, rfl, List.filter_sublist _, ?_, ?_⟩
  · intro u
    simp [TermCache.filter_new, List.mem_filter]
  · intro h
    unfold TermCache.get at h ⊢
    cases hf : (c.entries.find? (fun p => p.1 == normalise t)) with
    | none => simp [hf]
    | some kv => simp [hf] at h

/-- Witness for C10 at a concrete cache. -/
theorem termCache_contains_filter_new_frame_witness :
    ((⟨[("x", 1)], 512⟩ : TermCache Nat).get "y").1 = none
      ∧ ((⟨[("x", 1)], 512⟩ : TermCache Nat).get "y").2
          = (⟨[("x", 1)], 512⟩ : TermCache Nat) := by
  constructor
  · decide
  · exact (termCache_contains_filter_new_frame
      (⟨[("x", 1)], 512⟩ : TermCache Nat) "y" []).2.2.2.2 (by decide)

theorem joinWS_append_singleton (us : List String) (t : String) (h : us ≠ []) :
    joinWS (us ++ [t]) = joinWS us ++ " " ++ t := by
  induction us with
  | nil => exact absurd rfl h
  | cons x xs ih =>
    cases xs with
    | nil => rfl
    | cons y ys =>
      have := ih (by simp)
      simp only [List.cons_append] at this ⊢
      rw [show joinWS (x :: y :: (ys ++ [t])) = x ++ " " ++ joinWS (y :: (ys ++ [t])) from rfl,
        this, show joinWS (x :: y :: ys) = x ++ " " ++ joinWS (y :: ys) from rfl]
      simp [String.append_assoc]

theorem length_pos_ne_empty {s : String} (h : 0 < s.length) : s ≠ "" := by
  intro e
  rw [e] at h
  exact Nat.lt_irrefl 0 h

theorem append_ne_empty_left {s : String} (t : String) (h : s ≠ "") : s ++ t ≠ "" := by
  apply length_pos_ne_empty
  rw [String.length_append]
  have : 0 < s.length := by
    rcases Nat.eq_zero_or_pos s.length with h0 | h0
    · exact absurd (by cases s with
        | mk data =>
          cases data with
          | nil => rfl
          | cons c cs => simp [String.length] at h0) h
    · exact h0
  omega

theorem joinWS_ne_empty (us : List String) (h : us ≠ [])
    (hne : ∀ u ∈ us, u ≠ "") : joinWS us ≠ "" := by
  cases us with
  | nil => exact absurd rfl h
  | cons x xs =>
    cases xs with
    | nil => exact hne x (List.mem_singleton.mpr rfl)
    | cons y ys =>
      rw [show joinWS (x :: y :: ys) = x ++ " " ++ joinWS (y :: ys) from rfl]
      rw [String.append_assoc]
      exact append_ne_empty_left _ (hne x (by simp))

theorem receiver_foldl_inv (frames : List Frame) (full : String) (outs : List String)
    (h1 : full = joinWS outs) (h2 : ∀ u ∈ outs, u ≠ "") :
    (frames.foldl receiverStep (full, outs)).1
        = joinWS (frames.foldl receiverStep (full, outs)).2
      ∧ ∀ u ∈ (frames.foldl receiverStep (full, outs)).2, u ≠ "" := by
  induction frames generalizing full outs with
  | nil => exact ⟨h1, h2⟩
  | cons fr rest ih =>
    simp only [List.foldl_cons]
    by_cases he : fr.transcript = ""
    · rw [show receiverStep (full, outs) fr = (full, outs) by
        simp [receiverStep, he]]
      exact ih full outs h1 h2
    · by_cases hf : fr.is_final = true
      · rw [show receiverStep (full, outs) fr
            = ((if full = "" then fr.transcript else full ++ " " ++ fr.transcript),
                outs ++ [fr.transcript]) by
          simp [receiverStep, he, hf]]
        apply ih
        · by_cases hfull : full = ""
          · have houts : outs = [] := by
              cases outs with
              | nil => rfl
              | cons o os =>
                exact absurd (hfull ▸ h1.symm)
                  (joinWS_ne_empty _ (by simp) h2)
            simp [hfull, houts, joinWS]
          · have houts : outs ≠ [] := by
              intro e
              exact hfull (by simp [e, joinWS] at h1; exact h1)
            rw [if_neg hfull, joinWS_append_singleton outs _ houts, h1]
        · intro u hu
          rcases List.mem_append.mp hu with hu | hu
          · exact h2 u hu
          · rw [List.mem_singleton.mp hu]; exact he
      · rw [show receiverStep (full, outs) fr = (full, outs) by
          simp [receiverStep, he, hf]]
        exact ih full outs h1 h2

/-- C1 — the rolling transcript always equals the whitespace-join of the
final utterance texts published so far, in arrival order; per step an
utterance appended to an empty transcript yields the text itself, otherwise
the old transcript, one space, and the text. -/
theorem transcript_eq_joinWS_utterances (frames : List Frame) :
    (runReceiver frames).1 = joinWS (runReceiver frames).2 := by
  exact (receiver_foldl_inv frames "" [] rfl (by intro u hu; cases hu)).1

theorem ingest_preserves_times (s : SchedState) (u : Option String) :
    (ingest s u).last_process_time = s.last_process_time
      ∧ (ingest s u).last_pipeline_time = s.last_pipeline_time
      ∧ (ingest s u).retry_pending = s.retry_pending
      ∧ (ingest s u).retry_after = s.retry_after := by
  cases u with
  | none => exact ⟨rfl, rfl, rfl, rfl⟩
  | some t =>
    by_cases h : pyStripStr t = "" <;> simp [ingest, h]

theorem schedStep_none_state (s : SchedState) (inp : LoopInput)
    (h : (schedStep s inp).2 = none) :
    (schedStep s inp).1.last_pipeline_time = s.last_pipeline_time := by
  unfold schedStep at h ⊢
  by_cases hc : (!(ingest s inp.utterance).buffer.isEmpty
      && decide (inp.now - (ingest s inp.utterance).last_process_time ≥ MIN_PIPELINE_INTERVAL)
      && decide (inp.now - (ingest s inp.utterance).last_pipeline_time ≥ MIN_PIPELINE_INTERVAL)
      || ((ingest s inp.utterance).retry_pending
          && decide (inp.now ≥ (ingest s inp.utterance).retry_after))) = true
  · simp [hc] at h
  · simp only [hc]
    simp only [Bool.false_eq_true, if_false]
    exact (ingest_preserves_times s inp.utterance).2.1

theorem runSched_spaced (inps : List LoopInput) (s : SchedState) :
    SpacedFrom s.last_pipeline_time (runSched s inps).2 := by
  induction inps generalizing s with
  | nil => trivial
  | cons inp rest ih =>
    unfold runSched
    rcases hstep : schedStep s inp with ⟨s1, inv?⟩
    cases inv? with
    | none =>
      simp only
      have hlpt : s1.last_pipeline_time = s.last_pipeline_time := by
        have := schedStep_none_state s inp (by rw [hstep])
        rw [hstep] at this
        exact this
      rw [← hlpt]
      exact ih s1
    | some inv =>
      simp only
      rcases hrun : runSched s1 rest with ⟨s2, invs⟩
      constructor
      · -- head spacing: a normal trigger demands now - last_pipeline_time ≥ 20
        intro hnorm
        unfold schedStep at hstep
        by_cases hc : (!(ingest s inp.utterance).buffer.isEmpty
            && decide (inp.now - (ingest s inp.utterance).last_process_time ≥ MIN_PIPELINE_INTERVAL)
            && decide (inp.now - (ingest s inp.utterance).last_pipeline_time ≥ MIN_PIPELINE_INTERVAL)
            || ((ingest s inp.utterance).retry_pending
                && decide (inp.now ≥ (ingest s inp.utterance).retry_after))) = true
        · simp only [hc, if_true] at hstep
          have hinv : inv = ⟨inp.now,
              (if (ingest s inp.utterance).buffer.isEmpty then inp.contextTail
                else joinWS (ingest s inp.utterance).buffer),
              !(ingest s inp.utterance).buffer.isEmpty
                && decide (inp.now - (ingest s inp.utterance).last_process_time ≥ MIN_PIPELINE_INTERVAL)
                && decide (inp.now - (ingest s inp.utterance).last_pipeline_time ≥ MIN_PIPELINE_INTERVAL),
              (ingest s inp.utterance).retry_pending
                && decide (inp.now ≥ (ingest s inp.utterance).retry_after),
              inp.pipelineOk⟩ := by
            have := congrArg Prod.snd hstep
            simp only at this
            exact (Option.some.injEq _ _).mp this |>.symm
          have htime : inv.time = inp.now := by rw [hinv]
          rw [htime]
          rw [hinv] at hnorm
          simp only [Bool.and_eq_true, decide_eq_true_eq] at hnorm
          rw [(ingest_preserves_times s inp.utterance).2.1] at hnorm
          exact hnorm.2
        · simp [hc] at hstep
      · -- tail spacing: the new state's last_pipeline_time is inv.time
        have hs1 : s1.last_pipeline_time = inv.time := by
          unfold schedStep at hstep
          by_cases hc : (!(ingest s inp.utterance).buffer.isEmpty
              && decide (inp.now - (ingest s inp.utterance).last_process_time ≥ MIN_PIPELINE_INTERVAL)
              && decide (inp.now - (ingest s inp.utterance).last_pipeline_time ≥ MIN_PIPELINE_INTERVAL)
              || ((ingest s inp.utterance).retry_pending
                  && decide (inp.now ≥ (ingest s inp.utterance).retry_after))) = true
          · simp only [hc, if_true] at hstep
            have h1 := congrArg Prod.fst hstep
            have h2 := congrArg Prod.snd hstep
            simp only at h1 h2
            have : inv.time = inp.now := by
              rw [← (Option.some.injEq _ _).mp h2]
            rw [this, ← h1]
          · simp [hc] at hstep
        have := ih s1
        rw [hrun] at this
        rw [← hs1]
        exact this

theorem spacedFrom_chain (t : ℚ) (l : List Invocation) (h : SpacedFrom t l) :
    List.Chain' (fun a b : Invocation =>
      b.normalTrigger = true → b.time - a.time ≥ MIN_PIPELINE_INTERVAL) l := by
  induction l generalizing t with
  | nil => exact List.chain'_nil
  | cons a rest ih =>
    rcases h with ⟨_, htail⟩
    cases rest with
    | nil => simp
    | cons b rs =>
      rcases htail with ⟨hb, hrest⟩
      exact List.Chain'.cons hb (ih a.time ⟨hb, hrest⟩)

theorem list_isEmpty_false_iff {α : Type} (l : List α) :
    l.isEmpty = false ↔ l ≠ [] := by
  cases l <;> simp

/-- C2 — (a) in any run of the scheduler loop, every normally-triggered
pipeline invocation starts at least `MIN_PIPELINE_INTERVAL = 20` seconds
after the invocation before it (retry-triggered invocations are exempt from
this statement); (b) any firing stamps both `last_process_time` and
`last_pipeline_time` with `now`, and the normal trigger holds exactly when
the post-ingest buffer is non-empty and both elapsed times are at least
`MIN_PIPELINE_INTERVAL`. -/
theorem pipeline_invocations_spaced :
    (∀ (s : SchedState) (inps : List LoopInput),
      List.Chain' (fun a b : Invocation =>
        b.normalTrigger = true → b.time - a.time ≥ MIN_PIPELINE_INTERVAL)
        (runSched s inps).2)
    ∧ (∀ (s : SchedState) (inp : LoopInput) (s' : SchedState) (inv : Invocation),
        schedStep s inp = (s', some inv) →
          s'.last_process_time = inp.now ∧ s'.last_pipeline_time = inp.now
            ∧ (inv.normalTrigger = true ↔
                (ingest s inp.utterance).buffer ≠ []
                  ∧ inp.now - s.last_process_time ≥ MIN_PIPELINE_INTERVAL
                  ∧ inp.now - s.last_pipeline_time ≥ MIN_PIPELINE_INTERVAL)) := by
  constructor
  · intro s inps
    exact spacedFrom_chain s.last_pipeline_time _ (runSched_spaced inps s)
  · intro s inp s' inv hstep
    unfold schedStep at hstep
    by_cases hc : (!(ingest s inp.utterance).buffer.isEmpty
        && decide (inp.now - (ingest s inp.utterance).last_process_time ≥ MIN_PIPELINE_INTERVAL)
        && decide (inp.now - (ingest s inp.utterance).last_pipeline_time ≥ MIN_PIPELINE_INTERVAL)
        || ((ingest s inp.utterance).retry_pending
            && decide (inp.now ≥ (ingest s inp.utterance).retry_after))) = true
    · simp only [hc, if_true] at hstep
      have h1 := congrArg Prod.fst hstep
      have h2 := congrArg Prod.snd hstep
      simp only at h1 h2
      have hinv := (Option.some.injEq _ _).mp h2
      refine ⟨by rw [← h1], by rw [← h1], ?_⟩
      rw [← hinv]
      simp only [Bool.and_eq_true, decide_eq_true_eq, Bool.not_eq_true',
        list_isEmpty_false_iff]
      rw [(ingest_preserves_times s inp.utterance).1,
        (ingest_preserves_times s inp.utterance).2.1]
      constructor
      · rintro ⟨⟨hb, hp⟩, hq⟩
        exact ⟨hb, hp, hq⟩
      · rintro ⟨hb, hp, hq⟩
        exact ⟨⟨hb, hp⟩, hq⟩
    · simp [hc] at hstep

/-- Witness for C2 part (b) at a concrete firing: a buffered utterance and a
clock 25 seconds past both timestamps fires the pipeline and stamps both
times. -/
theorem pipeline_invocations_spaced_witness :
    (schedStep ⟨["hi"], 0, 0, false, 0⟩ ⟨25, none, "", true⟩).1.last_process_time = 25
      ∧ (schedStep ⟨["hi"], 0, 0, false, 0⟩ ⟨25, none, "", true⟩).1.last_pipeline_time = 25 := by
  have h := pipeline_invocations_spaced.2 ⟨["hi"], 0, 0, false, 0⟩ ⟨25, none, "", true⟩
      ⟨[], 25, 25, false, 0⟩ ⟨25, "hi", true, false, true⟩
      (by norm_num [schedStep, ingest, MIN_PIPELINE_INTERVAL, joinWS])
  have he : (schedStep ⟨["hi"], 0, 0, false, 0⟩ ⟨25, none, "", true⟩).1
      = ⟨[], 25, 25, false, 0⟩ := by
    norm_num [schedStep, ingest, MIN_PIPELINE_INTERVAL, joinWS]
  rw [he]
  exact ⟨h.1, h.2.1⟩

/-- C7 — when a trigger fires, `combined` is the whitespace-join of the
(post-ingest) buffer if non-empty and otherwise `context_tail(300)`; on
pipeline failure the step sets `retry_pending = true` and
`retry_after = now + 20` (RETRY_BACKOFF), on success it clears
`retry_pending`; and a pending retry whose buffer stayed empty fires at any
`now ≥ retry_after` using the context tail. -/
theorem retry_uses_context_tail :
    (∀ (s : SchedState) (inp : LoopInput) (s' : SchedState) (inv : Invocation),
      schedStep s inp = (s', some inv) →
        inv.combined
            = (if (ingest s inp.utterance).buffer = [] then inp.contextTail
                else joinWS (ingest s inp.utterance).buffer)
          ∧ (inp.pipelineOk = false →
              s'.retry_pending = true ∧ s'.retry_after = inp.now + 20)
          ∧ (inp.pipelineOk = true → s'.retry_pending = false))
    ∧ (∀ (s : SchedState) (inp : LoopInput),
        s.retry_pending = true → s.buffer = [] → inp.utterance = none →
          inp.now ≥ s.retry_after →
            (schedStep s inp).2
              = some ⟨inp.now, inp.contextTail, false, true, inp.pipelineOk⟩) := by
  constructor
  · intro s inp s' inv hstep
    unfold schedStep at hstep
    by_cases hc : (!(ingest s inp.utterance).buffer.isEmpty
        && decide (inp.now - (ingest s inp.utterance).last_process_time ≥ MIN_PIPELINE_INTERVAL)
        && decide (inp.now - (ingest s inp.utterance).last_pipeline_time ≥ MIN_PIPELINE_INTERVAL)
        || ((ingest s inp.utterance).retry_pending
            && decide (inp.now ≥ (ingest s inp.utterance).retry_after))) = true
    · simp only [hc, if_true] at hstep
      have h1 := congrArg Prod.fst hstep
      have h2 := congrArg Prod.snd hstep
      simp only at h1 h2
      have hinv := (Option.some.injEq _ _).mp h2
      refine ⟨?_, ?_, ?_⟩
      · rw [← hinv]
        by_cases hb : (ingest s inp.utterance).buffer = []
        · simp [hb]
        · rw [if_neg hb, if_neg (fun he => hb ((List.isEmpty_iff).mp he))]
      · intro hfail
        rw [← h1]
        simp [hfail]
      · intro hok
        rw [← h1]
        simp [hok]
    · simp [hc] at hstep
  · intro s inp hrp hbuf hu hready
    unfold schedStep
    rw [hu]
    have hing : ingest s none = s := rfl
    rw [hing]
    simp [hbuf, hrp, hready]

/-- Witness for C7: a pending retry with an empty buffer fires at
`now = 30 ≥ retry_after = 10` and analyzes the context tail. -/
theorem retry_uses_context_tail_witness :
    (schedStep ⟨[], 0, 0, true, 10⟩ ⟨30, none, "tail", true⟩).2
      = some ⟨30, "tail", false, true, true⟩ := by
  exact retry_uses_context_tail.2 ⟨[], 0, 0, true, 10⟩ ⟨30, none, "tail", true⟩
    rfl rfl rfl (by norm_num)

theorem artifactOrderOk_topic (a : Analysis) (rest : List Action) :
    artifactOrderOk (topicActs a ++ rest) = artifactOrderOk rest := by
  unfold topicActs
  cases a.topic with
  | none => rfl
  | some t =>
    by_cases h : t = ""
    · simp [h]
    · simp only [if_neg h, List.cons_append, List.nil_append]
      rfl

theorem artifactOrderOk_takeaway (ts : Nat) (a : Analysis) (rest : List Action) :
    artifactOrderOk (takeawayActs ts a ++ rest) = artifactOrderOk rest := by
  unfold takeawayActs
  cases a.takeaway with
  | none => rfl
  | some tk =>
    by_cases h : tk = ""
    · simp [h]
    · simp only [if_neg h, List.cons_append, List.nil_append]
      show ((tk == tk) && artifactOrderOk rest) = artifactOrderOk rest
      simp

theorem artifactOrderOk_summary (a : Analysis) (rest : List Action) :
    artifactOrderOk (summaryActs a ++ rest) = artifactOrderOk rest := by
  unfold summaryActs
  cases a.summary with
  | none => rfl
  | some s =>
    by_cases h : s = ""
    · simp [h]
    · simp only [if_neg h, List.cons_append, List.nil_append]
      show ((s == s) && artifactOrderOk rest) = artifactOrderOk rest
      simp

theorem artifactOrderOk_defineLoop (ts : Nat) (rs : List DefRecord)
    (cache : TermCache DefRecord) (rest : List Action) :
    artifactOrderOk ((defineLoop ts cache rs).2 ++ rest) = artifactOrderOk rest := by
  induction rs generalizing cache with
  | nil => rfl
  | cons r rs' ih =>
    unfold defineLoop
    simp only
    rcases hdl : defineLoop ts (cache.put r.term r) rs' with ⟨c2, acts⟩
    simp only [List.cons_append]
    show ((r.term == r.term) && artifactOrderOk (acts ++ rest)) = artifactOrderOk rest
    have := ih (cache.put r.term r)
    rw [hdl] at this
    simp [this]

theorem artifactOrderOk_termStep (env : PipelineEnv) (cache : TermCache DefRecord)
    (a : Analysis) (rest : List Action) :
    artifactOrderOk ((termStep env cache a).2 ++ rest) = artifactOrderOk rest := by
  unfold termStep
  split
  · rfl
  · dsimp only
    split
    · rfl
    · exact artifactOrderOk_defineLoop _ _ _ _

theorem artifactOrderOk_drStep (env : PipelineEnv) (a : Analysis)
    (st : SessionCaches) :
    artifactOrderOk (deepResearchStep env a st).2 = true := by
  unfold deepResearchStep
  split
  · split
    · split
      · rename_i res hres
        show ((res.term == res.term) && artifactOrderOk []) = true
        simp [artifactOrderOk]
      · rfl
    · rfl
  · rfl

/-- C5 (amended) — in every pipeline invocation the Takeaway, auto-define
Card, and deep-research Card store writes complete (immediately) before the
corresponding `new_takeaway` / `new_card` / `deep_research_result` events,
but the summary is the exception: `summary_update` is emitted immediately
before the summary store write. -/
theorem pipeline_artifact_order (env : PipelineEnv) (st : SessionCaches) :
    artifactOrderOk (run_pipeline env st).2.2 = true := by
  unfold run_pipeline
  cases ha : env.analysis with
  | none => rfl
  | some a =>
    simp only
    rcases hts : termStep env st.termCache a with ⟨cache1, cardActs⟩
    simp only [List.append_assoc]
    rw [artifactOrderOk_topic, artifactOrderOk_takeaway, artifactOrderOk_summary]
    have h1 := artifactOrderOk_termStep env st.termCache a
        (deepResearchStep env a { st with termCache := cache1 }).2
    rw [hts] at h1
    simp only at h1
    rw [h1]
    exact artifactOrderOk_drStep env a _

/-- C5 counterexample — on a summary-bearing analysis the pipeline emits
`summary_update` and only then performs the summary store write, so the
claimed "store write completes before the corresponding outbound event" is
false for the summary artifact. -/
theorem summary_emitted_before_persist :
    (run_pipeline envSummaryOnly stEmpty).2.2
        = [.emit (.summaryUpdate "live"), .saveSummary "live"]
      ∧ savesBeforeEvents (run_pipeline envSummaryOnly stEmpty).2.2 = false := by
  have htrace : (run_pipeline envSummaryOnly stEmpty).2.2
      = [.emit (.summaryUpdate "live"), .saveSummary "live"] := by
    norm_num [run_pipeline, envSummaryOnly, stEmpty, termStep, deepResearchStep,
      topicActs, takeawayActs, summaryActs,
      (show ("live" : String) ≠ "" from by decide)]
  refine ⟨htrace, ?_⟩
  rw [htrace]
  rfl

theorem no_topicUpdate_takeaway (ts : Nat) (a : Analysis) (t : String) (e : ℚ) :
    Action.emit (.topicUpdate t e) ∉ takeawayActs ts a := by
  unfold takeawayActs
  cases a.takeaway with
  | none => simp
  | some tk =>
    by_cases h : tk = "" <;> simp [h]

theorem no_topicUpdate_summary (a : Analysis) (t : String) (e : ℚ) :
    Action.emit (.topicUpdate t e) ∉ summaryActs a := by
  unfold summaryActs
  cases a.summary with
  | none => simp
  | some s =>
    by_cases h : s = "" <;> simp [h]

theorem no_topicUpdate_defineLoop (ts : Nat) (cache : TermCache DefRecord)
    (rs : List DefRecord) (t : String) (e : ℚ) :
    Action.emit (.topicUpdate t e) ∉ (defineLoop ts cache rs).2 := by
  induction rs generalizing cache with
  | nil => simp [defineLoop]
  | cons r rs' ih =>
    unfold defineLoop
    simp only
    rcases hdl : defineLoop ts (cache.put r.term r) rs' with ⟨c2, acts⟩
    intro hmem
    rcases hmem with _ | ⟨_, hmem⟩
    rcases hmem with _ | ⟨_, hmem⟩
    have := ih (cache.put r.term r)
    rw [hdl] at this
    exact this hmem

theorem no_topicUpdate_termStep (env : PipelineEnv) (cache : TermCache DefRecord)
    (a : Analysis) (t : String) (e : ℚ) :
    Action.emit (.topicUpdate t e) ∉ (termStep env cache a).2 := by
  unfold termStep
  split
  · simp
  · dsimp only
    split
    · simp
    · exact no_topicUpdate_defineLoop _ _ _ _ _

theorem no_topicUpdate_drStep (env : PipelineEnv) (a : Analysis)
    (st : SessionCaches) (t : String) (e : ℚ) :
    Action.emit (.topicUpdate t e) ∉ (deepResearchStep env a st).2 := by
  unfold deepResearchStep
  split
  · split
    · split
      · simp
      · simp
    · simp
  · simp

/-- C8 (amended) — every `topic_update` event of a pipeline invocation
carries exactly the emphasis value the adapter parsed; the adapter computes
`float(emphasis)` with fallback `0.5` for a missing or non-convertible
value, and applies NO `[0,1]` range check, so a numeric model-reported value
is forwarded verbatim even when it lies outside `[0,1]`. -/
theorem topic_update_emphasis_unvalidated :
    (∀ (env : PipelineEnv) (st : SessionCaches) (a : Analysis) (t : String) (e : ℚ),
      env.analysis = some a →
        Action.emit (.topicUpdate t e) ∈ (run_pipeline env st).2.2 →
          e = a.emphasis_level)
    ∧ (∀ q : ℚ, parseEmphasis (some (.num q)) = q)
    ∧ parseEmphasis none = 1/2 ∧ parseEmphasis (some .nonNumeric) = 1/2 := by
  refine ⟨?_, fun q => rfl, rfl, rfl⟩
  intro env st a t e ha hmem
  unfold run_pipeline at hmem
  rw [ha] at hmem
  simp only at hmem
  rcases hts : termStep env st.termCache a with ⟨cache1, cardActs⟩
  rw [hts] at hmem
  simp only [List.append_assoc, List.mem_append] at hmem
  rcases hmem with hmem | hmem | hmem | hmem | hmem
  · unfold topicActs at hmem
    cases htp : a.topic with
    | none => rw [htp] at hmem; cases hmem
    | some tp =>
      rw [htp] at hmem
      dsimp only at hmem
      by_cases hne : tp = ""
      · rw [if_pos hne] at hmem; cases hmem
      · rw [if_neg hne] at hmem
        rcases hmem with _ | ⟨_, h2⟩
        · rfl
        · cases h2
  · exact absurd hmem (no_topicUpdate_takeaway _ _ _ _)
  · exact absurd hmem (no_topicUpdate_summary _ _ _)
  · have := no_topicUpdate_termStep env st.termCache a t e
    rw [hts] at this
    exact absurd hmem this
  · exact absurd hmem (no_topicUpdate_drStep _ _ _ _ _)

/-- C8 counterexample — a model-reported `emphasis_level = 1.5` parses to
`3/2` and is forwarded in `topic_update` unchanged, which is outside
`[0,1]`: the adapter performs no range validation. -/
theorem topic_update_emphasis_out_of_range :
    parseEmphasis (some (.num (3/2))) = 3/2
      ∧ (run_pipeline envEmphasisOOB stEmpty).2.2
          = [.emit (.topicUpdate "Transformers" (3/2))]
      ∧ ¬((3/2 : ℚ) ≤ 1) := by
  refine ⟨rfl, ?_, by norm_num⟩
  norm_num [run_pipeline, envEmphasisOOB, stEmpty, termStep, deepResearchStep,
    topicActs, takeawayActs, summaryActs, drCandidates,
    (show ("Transformers" : String) ≠ "" from by decide)]

/-- Witness for the C8 amended theorem at the out-of-range input. -/
theorem topic_update_emphasis_unvalidated_witness :
    ((3 : ℚ)/2) = (⟨[], some "Transformers", 3/2, none, none⟩ : Analysis).emphasis_level := by
  apply topic_update_emphasis_unvalidated.1 envEmphasisOOB stEmpty
      ⟨[], some "Transformers", 3/2, none, none⟩ "Transformers" (3/2) rfl
  have htr : (run_pipeline envEmphasisOOB stEmpty).2.2
      = [.emit (.topicUpdate "Transformers" (3/2))] := by
    norm_num [run_pipeline, envEmphasisOOB, stEmpty, termStep, deepResearchStep,
      topicActs, takeawayActs, summaryActs, drCandidates,
      (show ("Transformers" : String) ≠ "" from by decide)]
  rw [htr]
  exact List.mem_singleton.mpr rfl

theorem deep_research_term (o : String → Option String) (t : String) (r : DefRecord)
    (h : deep_research o t = some r) : r.term = t := by
  unfold deep_research at h
  split at h
  · cases h
  · split at h
    · cases h
    · split at h
      · cases h
      · injection h with h
        rw [← h]

theorem deepResearchTerms_append (l1 l2 : List Action) :
    deepResearchTerms (l1 ++ l2) = deepResearchTerms l1 ++ deepResearchTerms l2 :=
  List.filterMap_append _ _ _

theorem deepResearchTerms_topic (a : Analysis) :
    deepResearchTerms (topicActs a) = [] := by
  unfold topicActs
  cases a.topic with
  | none => rfl
  | some t =>
    by_cases h : t = "" <;> simp [h, deepResearchTerms]

theorem deepResearchTerms_takeaway (ts : Nat) (a : Analysis) :
    deepResearchTerms (takeawayActs ts a) = [] := by
  unfold takeawayActs
  cases a.takeaway with
  | none => rfl
  | some tk =>
    by_cases h : tk = "" <;> simp [h, deepResearchTerms]

theorem deepResearchTerms_summary (a : Analysis) :
    deepResearchTerms (summaryActs a) = [] := by
  unfold summaryActs
  cases a.summary with
  | none => rfl
  | some s =>
    by_cases h : s = "" <;> simp [h, deepResearchTerms]

theorem deepResearchTerms_defineLoop (ts : Nat) (cache : TermCache DefRecord)
    (rs : List DefRecord) :
    deepResearchTerms (defineLoop ts cache rs).2 = [] := by
  induction rs generalizing cache with
  | nil => rfl
  | cons r rs' ih =>
    unfold defineLoop
    simp only
    rcases hdl : defineLoop ts (cache.put r.term r) rs' with ⟨c2, acts⟩
    show deepResearchTerms (_ :: _ :: acts) = []
    have := ih (cache.put r.term r)
    rw [hdl] at this
    simpa [deepResearchTerms, List.filterMap_cons] using this

theorem deepResearchTerms_termStep (env : PipelineEnv) (cache : TermCache DefRecord)
    (a : Analysis) :
    deepResearchTerms (termStep env cache a).2 = [] := by
  unfold termStep
  split
  · rfl
  · dsimp only
    split
    · rfl
    · exact deepResearchTerms_defineLoop _ _ _

theorem contains_false_of_not_mem {l : List String} {k : String}
    (h : k ∉ l) : l.contains k = false := by
  induction l with
  | nil => rfl
  | cons x xs ih =>
    have hx : ¬(k = x) := fun e => h (e ▸ List.mem_cons_self x xs)
    have hxs : k ∉ xs := fun e => h (List.mem_cons_of_mem x e)
    simp only [List.contains_cons]
    rw [ih hxs]
    simp [beq_eq_false_iff_ne, Ne, hx]

theorem mem_of_contains_true {l : List String} {k : String}
    (h : l.contains k = true) : k ∈ l := by
  by_contra hn
  rw [contains_false_of_not_mem hn] at h
  cases h

theorem contains_true_of_mem {l : List String} {k : String}
    (h : k ∈ l) : l.contains k = true := by
  induction l with
  | nil => cases h
  | cons x xs ih =>
    simp only [List.contains_cons]
    rcases h with _ | ⟨_, hxs⟩
    · simp
    · rw [ih hxs]; simp

/-- Per-invocation facts of the deep-research step: the researched set is
only extended; any card produced carries a term whose `strip().lower()` key
was not researched before and is researched after; at most one card per
invocation; the term cache is untouched. -/
theorem drStep_spec (env : PipelineEnv) (a : Analysis) (st : SessionCaches) :
    (∀ k ∈ st.deepResearchCache,
        k ∈ (deepResearchStep env a st).1.deepResearchCache)
      ∧ (∀ u ∈ deepResearchTerms (deepResearchStep env a st).2,
          st.deepResearchCache.contains (drKey u) = false
            ∧ drKey u ∈ (deepResearchStep env a st).1.deepResearchCache)
      ∧ (deepResearchTerms (deepResearchStep env a st).2).length ≤ 1
      ∧ (deepResearchStep env a st).1.termCache = st.termCache := by
  unfold deepResearchStep
  split
  · split
    · rename_i target htarget
      have hkey : (st.deepResearchCache.contains (drKey target)) = false := by
        have := List.find?_some htarget
        simpa using this
      split
      · rename_i res hres
        have hterm : res.term = target := deep_research_term _ _ _ hres
        refine ⟨fun k hk => List.mem_append_left _ hk, ?_, ?_, rfl⟩
        · intro u hu
          have : u = res.term := by
            simpa [deepResearchTerms, List.filterMap_cons] using hu
          rw [this, hterm]
          exact ⟨hkey, List.mem_append_right _ (List.mem_singleton.mpr rfl)⟩
        · simp [deepResearchTerms, List.filterMap_cons]
      · refine ⟨fun k hk => List.mem_append_left _ hk, ?_, ?_, rfl⟩
        · intro u hu
          simp [deepResearchTerms] at hu
        · simp [deepResearchTerms]
    · refine ⟨fun k hk => hk, ?_, ?_, rfl⟩
      · intro u hu
        simp [deepResearchTerms] at hu
      · simp [deepResearchTerms]
  · refine ⟨fun k hk => hk, ?_, ?_, rfl⟩
    · intro u hu
      simp [deepResearchTerms] at hu
    · simp [deepResearchTerms]

/-- Lift of `drStep_spec` to a whole pipeline invocation: the other pipeline
steps produce no deep-research cards and do not touch the researched set. -/
theorem run_pipeline_dr_spec (env : PipelineEnv) (st : SessionCaches) :
    (∀ k ∈ st.deepResearchCache,
        k ∈ (run_pipeline env st).2.1.deepResearchCache)
      ∧ (∀ u ∈ deepResearchTerms (run_pipeline env st).2.2,
          st.deepResearchCache.contains (drKey u) = false
            ∧ drKey u ∈ (run_pipeline env st).2.1.deepResearchCache)
      ∧ (deepResearchTerms (run_pipeline env st).2.2).length ≤ 1 := by
  unfold run_pipeline
  cases ha : env.analysis with
  | none =>
    dsimp only
    refine ⟨fun k hk => hk, ?_, ?_⟩
    · intro u hu
      simp [deepResearchTerms] at hu
    · simp [deepResearchTerms]
  | some a =>
    simp only
    rcases hts : termStep env st.termCache a with ⟨cache1, cardActs⟩
    simp only
    have hterms : deepResearchTerms
        (topicActs a ++ takeawayActs env.ts a ++ summaryActs a ++ cardActs
          ++ (deepResearchStep env a { st with termCache := cache1 }).2)
        = deepResearchTerms (deepResearchStep env a { st with termCache := cache1 }).2 := by
      rw [deepResearchTerms_append, deepResearchTerms_append, deepResearchTerms_append,
        deepResearchTerms_append, deepResearchTerms_topic, deepResearchTerms_takeaway,
        deepResearchTerms_summary]
      have hc : deepResearchTerms cardActs = [] := by
        have := deepResearchTerms_termStep env st.termCache a
        rw [hts] at this
        exact this
      rw [hc]
      rfl
    have hdr := drStep_spec env a { st with termCache := cache1 }
    rw [hterms]
    exact ⟨fun k hk => hdr.1 k hk, fun u hu => hdr.2.1 u hu, hdr.2.2.1⟩

/-- C4 (amended) — across all scheduler-initiated deep-research cards of a
session, the `strip().lower()` keys are pairwise distinct: the scheduler
picks the first candidate whose key is not in `deep_research_cache`, inserts
the key before calling `deep_research`, and the set only grows.  (The key is
NOT whitespace-collapsed, unlike `TermCache._normalise`.) -/
theorem scheduler_deep_research_dedup (envs : List PipelineEnv) (st : SessionCaches) :
    List.Pairwise (fun u v => drKey u ≠ drKey v)
        (((runPipelines st envs).2.map deepResearchTerms).flatten)
      ∧ (∀ u ∈ ((runPipelines st envs).2.map deepResearchTerms).flatten,
          st.deepResearchCache.contains (drKey u) = false
            ∧ drKey u ∈ (runPipelines st envs).1.deepResearchCache)
      ∧ (∀ k ∈ st.deepResearchCache,
          k ∈ (runPipelines st envs).1.deepResearchCache) := by
  induction envs generalizing st with
  | nil =>
    refine ⟨List.Pairwise.nil, ?_, fun k hk => hk⟩
    intro u hu
    simp [runPipelines] at hu
  | cons env envs' ih =>
    unfold runPipelines
    rcases hrp : run_pipeline env st with ⟨ok, st1, acts⟩
    simp only
    rcases hrun : runPipelines st1 envs' with ⟨st2, rest⟩
    simp only [List.map_cons, List.flatten_cons]
    have hspec := run_pipeline_dr_spec env st
    rw [hrp] at hspec
    simp only at hspec
    have hih := ih st1
    rw [hrun] at hih
    simp only at hih
    refine ⟨?_, ?_, ?_⟩
    · rw [List.pairwise_append]
      refine ⟨?_, hih.1, ?_⟩
      · -- within one invocation: at most one card
        rcases hl : deepResearchTerms acts with _ | ⟨u, us⟩
        · exact List.Pairwise.nil
        · have : us = [] := by
            have hlen := hspec.2.2
            rw [hl] at hlen
            simpa using hlen
          rw [this]
          exact List.pairwise_singleton _ _
      · -- across invocations
        intro u hu v hv he
        have h1 := hspec.2.1 u hu
        have h2 := hih.2.1 v hv
        rw [← he] at h2
        have hc := contains_true_of_mem h1.2
        exact Bool.false_ne_true (h2.1.symm.trans hc)
    · intro u hu
      rcases List.mem_append.mp hu with hu | hu
      · exact ⟨(hspec.2.1 u hu).1, hih.2.2 _ ((hspec.2.1 u hu).2)⟩
      · have h2 := hih.2.1 u hu
        constructor
        · by_contra hc
          have hb : st.deepResearchCache.contains (drKey u) = true := by
            cases hcb : st.deepResearchCache.contains (drKey u) with
            | false => exact absurd hcb hc
            | true => rfl
          have hmem1 := hspec.1 _ (mem_of_contains_true hb)
          exact Bool.false_ne_true (h2.1.symm.trans (contains_true_of_mem hmem1))
        · exact h2.2
    · intro k hk
      exact hih.2.2 k (hspec.1 k hk)

theorem rp_envDR1 : run_pipeline envDR1 stEmpty = (true, stDR1, actsDR1) := by
  have h2 : deepResearchStep envDR1 aDR1 stEmpty = (stDR1, actsDR1) := by
    unfold deepResearchStep
    split
    · rfl
    · rename_i h
      exact absurd (by norm_num [envDR1, stEmpty] :
        envDR1.now - stEmpty.lastDeepResearchTime ≥ 30) h
  show (true, (deepResearchStep envDR1 aDR1 stEmpty).1,
      topicActs aDR1 ++ takeawayActs envDR1.ts aDR1 ++ summaryActs aDR1 ++ []
        ++ (deepResearchStep envDR1 aDR1 stEmpty).2) = (true, stDR1, actsDR1)
  rw [h2]
  rfl

theorem rp_envDR2 : run_pipeline envDR2 stDR1 = (true, stDR2, actsDR2) := by
  have h2 : deepResearchStep envDR2 aDR2 stDR1 = (stDR2, actsDR2) := by
    unfold deepResearchStep
    split
    · rfl
    · rename_i h
      exact absurd (by norm_num [envDR2, stDR1] :
        envDR2.now - stDR1.lastDeepResearchTime ≥ 30) h
  show (true, (deepResearchStep envDR2 aDR2 stDR1).1,
      topicActs aDR2 ++ takeawayActs envDR2.ts aDR2 ++ summaryActs aDR2 ++ []
        ++ (deepResearchStep envDR2 aDR2 stDR1).2) = (true, stDR2, actsDR2)
  rw [h2]
  rfl

theorem runs_envDR :
    runPipelines stEmpty [envDR1, envDR2] = (stDR2, [actsDR1, actsDR2]) := by
  simp only [runPipelines]
  rw [rp_envDR1]
  dsimp only
  rw [rp_envDR2]

/-- C4 counterexample — two scheduler-initiated deep-research cards whose
terms `"a  b"` and `"a b"` differ as `strip().lower()` keys but share one
normalized ( whitespace-collapsed) term: the code's deep-research dedup key
does not collapse internal whitespace. -/
theorem deep_research_shares_normalised_term :
    ((runPipelines stEmpty [envDR1, envDR2]).2.map deepResearchTerms).flatten
        = ["a  b", "a b"]
      ∧ normalise "a  b" = normalise "a b"
      ∧ "a  b" ≠ "a b" := by
  refine ⟨?_, by decide, by decide⟩
  rw [runs_envDR]
  rfl

/-- Witness for the C4 amended theorem: the first produced card's key was
unresearched before the run and is researched after it. -/
theorem scheduler_deep_research_dedup_witness :
    stEmpty.deepResearchCache.contains (drKey "a  b") = false
      ∧ drKey "a  b" ∈ (runPipelines stEmpty [envDR1, envDR2]).1.deepResearchCache := by
  apply (scheduler_deep_research_dedup [envDR1, envDR2] stEmpty).2.1 "a  b"
  rw [runs_envDR]
  show "a  b" ∈ ["a  b", "a b"]
  exact List.mem_cons_self _ _

theorem contains_iff_keys {α : Type} (c : TermCache α) (t : String) :
    (c.contains t).1 = true ↔ normalise t ∈ c.entries.map Prod.fst := by
  simp [TermCache.contains, List.any_eq_true, List.mem_map, beq_iff_eq]

theorem contains_false_iff_keys {α : Type} (c : TermCache α) (t : String) :
    (c.contains t).1 = false ↔ normalise t ∉ c.entries.map Prod.fst := by
  rw [← contains_iff_keys]
  cases (c.contains t).1 <;> simp

theorem mem_filter_new_contains_false {α : Type} (c : TermCache α)
    (ts : List String) (u : String) (h : u ∈ (c.filter_new ts).1) :
    (c.contains u).1 = false := by
  simp only [TermCache.filter_new, List.mem_filter, Bool.not_eq_true'] at h
  exact h.2

theorem put_maxsize {α : Type} (c : TermCache α) (t : String) (v : α) :
    (c.put t v).maxsize = c.maxsize := rfl

theorem put_length_le {α : Type} (c : TermCache α) (t : String) (v : α) :
    (c.put t v).entries.length ≤ c.entries.length + 1 := by
  unfold TermCache.put
  dsimp only
  split
  · calc ((c.entries.filter (fun p => !(p.1 == normalise t)) ++ [(normalise t, v)]).drop 1).length
        ≤ (c.entries.filter (fun p => !(p.1 == normalise t)) ++ [(normalise t, v)]).length :=
          (List.drop_sublist _ _).length_le
      _ ≤ c.entries.length + 1 := by
          rw [List.length_append]
          have := List.length_filter_le (fun p => !(p.1 == normalise t)) c.entries
          simpa using Nat.add_le_add_right this 1
  · rw [List.length_append]
    have := List.length_filter_le (fun p => !(p.1 == normalise t)) c.entries
    simpa using Nat.add_le_add_right this 1

theorem put_no_evict {α : Type} (c : TermCache α) (t : String) (v : α)
    (h : c.entries.length < c.maxsize) :
    (c.put t v).entries
      = c.entries.filter (fun p => !(p.1 == normalise t)) ++ [(normalise t, v)] := by
  unfold TermCache.put
  dsimp only
  rw [if_neg]
  intro hgt
  have hle : (c.entries.filter (fun p => !(p.1 == normalise t))
      ++ [(normalise t, v)]).length ≤ c.entries.length + 1 := by
    rw [List.length_append]
    have := List.length_filter_le (fun p => !(p.1 == normalise t)) c.entries
    simpa using Nat.add_le_add_right this 1
  omega

theorem put_key_mem {α : Type} (c : TermCache α) (t : String) (v : α)
    (h : c.entries.length < c.maxsize) :
    normalise t ∈ (c.put t v).entries.map Prod.fst := by
  rw [put_no_evict c t v h, List.map_append]
  exact List.mem_append_right _ (by simp)

theorem put_keys_mono {α : Type} (c : TermCache α) (t : String) (v : α)
    (h : c.entries.length < c.maxsize) (k : String)
    (hk : k ∈ c.entries.map Prod.fst) :
    k ∈ (c.put t v).entries.map Prod.fst := by
  rw [put_no_evict c t v h, List.map_append]
  by_cases he : k = normalise t
  · exact List.mem_append_right _ (by simp [he])
  · apply List.mem_append_left
    rcases List.mem_map.mp hk with ⟨p, hp, hpk⟩
    exact List.mem_map.mpr ⟨p, List.mem_filter.mpr ⟨hp, by simp [hpk, he]⟩, hpk⟩

theorem auto_define_term (o : String → Option String) (t : String) (r : DefRecord)
    (h : auto_define o t = some r) : r.term = t := by
  unfold auto_define at h
  split at h
  · cases h
  · split at h
    · cases h
    · split at h
      · cases h
      · injection h with h
        rw [← h]

theorem auto_define_batch_term (o : String → Option String) (terms : List TermInfo)
    (r : DefRecord) (h : r ∈ auto_define_batch o terms) :
    ∃ it ∈ terms, r.term = it.term := by
  unfold auto_define_batch at h
  rcases List.mem_filterMap.mp h with ⟨it, hit, hmap⟩
  rcases Option.map_eq_some'.mp hmap with ⟨r0, hr0, hr⟩
  refine ⟨it, hit, ?_⟩
  rw [← hr]
  exact auto_define_term o it.term r0 hr0

theorem defineLoop_terms (ts : Nat) (cache : TermCache DefRecord)
    (rs : List DefRecord) :
    autoDefineTerms (defineLoop ts cache rs).2 = rs.map (·.term) := by
  induction rs generalizing cache with
  | nil => rfl
  | cons r rs' ih =>
    unfold defineLoop
    simp only
    rcases hdl : defineLoop ts (cache.put r.term r) rs' with ⟨c2, acts⟩
    show autoDefineTerms (_ :: _ :: acts) = _
    have := ih (cache.put r.term r)
    rw [hdl] at this
    simp only [autoDefineTerms, List.filterMap_cons] at this ⊢
    rw [this]
    rfl

/-- Capacity-aware facts of the definition-card loop: when the cache has
room for the whole batch, no eviction happens, so the loop preserves the
bound, keeps all existing keys, and records every result's normalized term. -/
theorem defineLoop_spec (ts : Nat) (rs : List DefRecord) :
    ∀ (cache : TermCache DefRecord),
      cache.entries.length + rs.length ≤ cache.maxsize →
        (defineLoop ts cache rs).1.maxsize = cache.maxsize
          ∧ (defineLoop ts cache rs).1.entries.length
              ≤ cache.entries.length + rs.length
          ∧ (∀ k ∈ cache.entries.map Prod.fst,
              k ∈ (defineLoop ts cache rs).1.entries.map Prod.fst)
          ∧ (∀ r ∈ rs, normalise r.term
              ∈ (defineLoop ts cache rs).1.entries.map Prod.fst) := by
  induction rs with
  | nil =>
    intro cache _
    refine ⟨rfl, Nat.le_add_right _ _, fun k hk => hk, ?_⟩
    intro r hr
    cases hr
  | cons r rs' ih =>
    intro cache hcap
    have hlt : cache.entries.length < cache.maxsize := by
      have : 1 ≤ rs'.length + 1 := Nat.succ_le_succ (Nat.zero_le _)
      simp only [List.length_cons] at hcap
      omega
    have hput_len := put_length_le cache r.term r
    have hput_ms : (cache.put r.term r).maxsize = cache.maxsize := rfl
    have hcap' : (cache.put r.term r).entries.length + rs'.length
        ≤ (cache.put r.term r).maxsize := by
      rw [hput_ms]
      simp only [List.length_cons] at hcap
      omega
    have hih := ih (cache.put r.term r) hcap'
    unfold defineLoop
    simp only
    rcases hdl : defineLoop ts (cache.put r.term r) rs' with ⟨c2, acts⟩
    rw [hdl] at hih
    simp only at hih
    refine ⟨hih.1.trans hput_ms, ?_, ?_, ?_⟩
    · simp only [List.length_cons]
      calc c2.entries.length ≤ (cache.put r.term r).entries.length + rs'.length := hih.2.1
        _ ≤ cache.entries.length + 1 + rs'.length := Nat.add_le_add_right hput_len _
        _ = cache.entries.length + (rs'.length + 1) := by omega
    · intro k hk
      exact hih.2.2.1 k (put_keys_mono cache r.term r hlt k hk)
    · intro r' hr'
      rcases hr' with _ | ⟨_, hr'⟩
      · exact hih.2.2.1 _ (put_key_mem cache r.term r hlt)
      · exact hih.2.2.2 r' hr'

/-- Every auto-define card term of an invocation's term step was absent from
the cache (normalized) when `filter_new` ran. -/
theorem termStep_contains_false (env : PipelineEnv) (cache : TermCache DefRecord)
    (a : Analysis) :
    ∀ u ∈ autoDefineTerms (termStep env cache a).2, (cache.contains u).1 = false := by
  unfold termStep
  split
  · intro u hu
    simp [autoDefineTerms] at hu
  · dsimp only
    split
    · intro u hu
      simp [autoDefineTerms] at hu
    · intro u hu
      rw [defineLoop_terms] at hu
      rcases List.mem_map.mp hu with ⟨r, hr, hru⟩
      rcases auto_define_batch_term _ _ _ hr with ⟨it, hit, hterm⟩
      have hit2 := List.mem_filter.mp hit
      have hmem : it.term ∈ (cache.filter_new (a.terms.map (·.term))).1 :=
        mem_of_contains_true hit2.2
      rw [← hru, hterm]
      exact mem_filter_new_contains_false cache _ _ hmem

/-- Capacity-aware facts of the whole term step. -/
theorem termStep_spec (env : PipelineEnv) (cache : TermCache DefRecord) (a : Analysis)
    (hcap : cache.entries.length
        + (autoDefineTerms (termStep env cache a).2).length ≤ cache.maxsize) :
    (termStep env cache a).1.maxsize = cache.maxsize
      ∧ (termStep env cache a).1.entries.length
          ≤ cache.entries.length + (autoDefineTerms (termStep env cache a).2).length
      ∧ (∀ k ∈ cache.entries.map Prod.fst,
          k ∈ (termStep env cache a).1.entries.map Prod.fst)
      ∧ (∀ u ∈ autoDefineTerms (termStep env cache a).2,
          normalise u ∈ (termStep env cache a).1.entries.map Prod.fst) := by
  revert hcap
  unfold termStep
  split
  · intro _
    refine ⟨rfl, Nat.le_add_right _ _, fun k hk => hk, ?_⟩
    intro u hu
    simp [autoDefineTerms] at hu
  · dsimp only
    split
    · intro _
      refine ⟨rfl, Nat.le_add_right _ _, fun k hk => hk, ?_⟩
      intro u hu
      simp [autoDefineTerms] at hu
    · intro hcap
      rw [defineLoop_terms, List.length_map] at hcap
      have hspec := defineLoop_spec env.ts _ cache hcap
      refine ⟨hspec.1, ?_, hspec.2.2.1, ?_⟩
      · rw [defineLoop_terms, List.length_map]
        exact hspec.2.1
      · intro u hu
        rw [defineLoop_terms] at hu
        rcases List.mem_map.mp hu with ⟨r, hr, hru⟩
        rw [← hru]
        exact hspec.2.2.2 r hr

theorem autoDefineTerms_topic (a : Analysis) :
    autoDefineTerms (topicActs a) = [] := by
  unfold topicActs
  cases a.topic with
  | none => rfl
  | some t => by_cases h : t = "" <;> simp [h, autoDefineTerms]

theorem autoDefineTerms_takeaway (ts : Nat) (a : Analysis) :
    autoDefineTerms (takeawayActs ts a) = [] := by
  unfold takeawayActs
  cases a.takeaway with
  | none => rfl
  | some tk => by_cases h : tk = "" <;> simp [h, autoDefineTerms]

theorem autoDefineTerms_summary (a : Analysis) :
    autoDefineTerms (summaryActs a) = [] := by
  unfold summaryActs
  cases a.summary with
  | none => rfl
  | some s => by_cases h : s = "" <;> simp [h, autoDefineTerms]

theorem autoDefineTerms_drStep (env : PipelineEnv) (a : Analysis)
    (st : SessionCaches) :
    autoDefineTerms (deepResearchStep env a st).2 = [] := by
  unfold deepResearchStep
  split
  · split
    · split
      · simp [autoDefineTerms, List.filterMap_cons]
      · rfl
    · rfl
  · rfl

theorem autoDefineTerms_append (l1 l2 : List Action) :
    autoDefineTerms (l1 ++ l2) = autoDefineTerms l1 ++ autoDefineTerms l2 :=
  List.filterMap_append _ _ _

/-- The auto-define card terms of a pipeline invocation are exactly those of
its term step, and the final term cache is the term step's cache. -/
theorem run_pipeline_cards_eq (env : PipelineEnv) (st : SessionCaches) (a : Analysis)
    (ha : env.analysis = some a) :
    autoDefineTerms (run_pipeline env st).2.2
        = autoDefineTerms (termStep env st.termCache a).2
      ∧ (run_pipeline env st).2.1.termCache = (termStep env st.termCache a).1 := by
  unfold run_pipeline
  rw [ha]
  simp only
  rcases hts : termStep env st.termCache a with ⟨cache1, cardActs⟩
  simp only
  constructor
  · rw [autoDefineTerms_append, autoDefineTerms_append, autoDefineTerms_append,
      autoDefineTerms_append, autoDefineTerms_topic, autoDefineTerms_takeaway,
      autoDefineTerms_summary, autoDefineTerms_drStep]
    simp
  · exact (drStep_spec env a _).2.2.2

/-- Capacity-aware facts of one whole pipeline invocation for the term
cache. -/
theorem run_pipeline_ad_spec (env : PipelineEnv) (st : SessionCaches)
    (hcap : st.termCache.entries.length
        + (autoDefineTerms (run_pipeline env st).2.2).length ≤ st.termCache.maxsize) :
    (run_pipeline env st).2.1.termCache.maxsize = st.termCache.maxsize
      ∧ (run_pipeline env st).2.1.termCache.entries.length
          ≤ st.termCache.entries.length
            + (autoDefineTerms (run_pipeline env st).2.2).length
      ∧ (∀ k ∈ st.termCache.entries.map Prod.fst,
          k ∈ (run_pipeline env st).2.1.termCache.entries.map Prod.fst)
      ∧ (∀ u ∈ autoDefineTerms (run_pipeline env st).2.2,
          (st.termCache.contains u).1 = false
            ∧ normalise u ∈ (run_pipeline env st).2.1.termCache.entries.map Prod.fst) := by
  cases ha : env.analysis with
  | none =>
    have hnone : run_pipeline env st = (false, st, []) := by
      unfold run_pipeline
      rw [ha]
    rw [hnone] at hcap ⊢
    refine ⟨rfl, Nat.le_add_right _ _, fun k hk => hk, ?_⟩
    intro u hu
    simp [autoDefineTerms] at hu
  | some a =>
    have heq := run_pipeline_cards_eq env st a ha
    rw [heq.1] at hcap ⊢
    rw [heq.2]
    have hspec := termStep_spec env st.termCache a hcap
    refine ⟨hspec.1, hspec.2.1, hspec.2.2.1, ?_⟩
    intro u hu
    exact ⟨termStep_contains_false env st.termCache a u hu, hspec.2.2.2 u hu⟩

/-- Session-level facts of the term cache across a run without eviction. -/
theorem runs_ad_spec (envs : List PipelineEnv) :
    ∀ st : SessionCaches,
      st.termCache.entries.length + totalAutoLen (runPipelines st envs).2
          ≤ st.termCache.maxsize →
        (runPipelines st envs).1.termCache.maxsize = st.termCache.maxsize
          ∧ (runPipelines st envs).1.termCache.entries.length
              ≤ st.termCache.entries.length + totalAutoLen (runPipelines st envs).2
          ∧ (∀ k ∈ st.termCache.entries.map Prod.fst,
              k ∈ (runPipelines st envs).1.termCache.entries.map Prod.fst)
          ∧ (∀ trace ∈ (runPipelines st envs).2, ∀ u ∈ autoDefineTerms trace,
              normalise u ∈ (runPipelines st envs).1.termCache.entries.map Prod.fst)
          ∧ (∀ k ∈ st.termCache.entries.map Prod.fst,
              ∀ trace ∈ (runPipelines st envs).2, ∀ u ∈ autoDefineTerms trace,
                normalise u ≠ k)
          ∧ List.Pairwise (fun t1 t2 => ∀ u ∈ autoDefineTerms t1,
              ∀ v ∈ autoDefineTerms t2, normalise u ≠ normalise v)
              (runPipelines st envs).2 := by
  induction envs with
  | nil =>
    intro st _
    refine ⟨rfl, Nat.le_add_right _ _, fun k hk => hk, ?_, ?_, List.Pairwise.nil⟩
    · intro trace htrace
      simp [runPipelines] at htrace
    · intro k _ trace htrace
      simp [runPipelines] at htrace
  | cons env envs' ih =>
    intro st hcap
    rcases hrp : run_pipeline env st with ⟨ok, st1, acts⟩
    have hruns : runPipelines st envs' = runPipelines st envs' := rfl
    rcases hrun : runPipelines st1 envs' with ⟨st2, rest⟩
    have hcons : runPipelines st (env :: envs') = (st2, acts :: rest) := by
      unfold runPipelines
      rw [hrp]
      simp only
      rw [hrun]
    rw [hcons] at hcap ⊢
    simp only at hcap ⊢
    have htot : totalAutoLen (acts :: rest)
        = (autoDefineTerms acts).length + totalAutoLen rest := by
      simp [totalAutoLen]
    rw [htot] at hcap
    have hcap1 : st.termCache.entries.length + (autoDefineTerms acts).length
        ≤ st.termCache.maxsize := by omega
    have hspec0 := run_pipeline_ad_spec env st (by rw [hrp]; simpa using hcap1)
    rw [hrp] at hspec0
    simp only at hspec0
    have hcap' : st1.termCache.entries.length + totalAutoLen (runPipelines st1 envs').2
        ≤ st1.termCache.maxsize := by
      rw [hrun]
      simp only
      rw [hspec0.1]
      have := hspec0.2.1
      omega
    have hih := ih st1 hcap'
    rw [hrun] at hih
    simp only at hih
    have hms : st1.termCache.maxsize = st.termCache.maxsize := hspec0.1
    refine ⟨hih.1.trans hms, ?_, ?_, ?_, ?_, ?_⟩
    · rw [htot]
      have h1 := hih.2.1
      have h2 := hspec0.2.1
      omega
    · intro k hk
      exact hih.2.2.1 k (hspec0.2.2.1 k hk)
    · intro trace htrace u hu
      rcases htrace with _ | ⟨_, htrace⟩
      · exact hih.2.2.1 _ ((hspec0.2.2.2 u hu).2)
      · exact hih.2.2.2.1 trace htrace u hu
    · intro k hk trace htrace u hu
      rcases htrace with _ | ⟨_, htrace⟩
      · have hcf := (hspec0.2.2.2 u hu).1
        rw [contains_false_iff_keys] at hcf
        intro he
        exact hcf (he ▸ hk)
      · exact hih.2.2.2.2.1 k (hspec0.2.2.1 k hk) trace htrace u hu
    · constructor
      · intro trace htrace u hu v hv
        have hkey : normalise u ∈ st1.termCache.entries.map Prod.fst :=
          (hspec0.2.2.2 u hu).2
        exact (hih.2.2.2.2.1 (normalise u) hkey trace htrace v hv).symm
      · exact hih.2.2.2.2.2

/-- C3 (amended) — for every auto-define Card, the normalized term
(trim, lowercase, collapse whitespace) was absent from the term cache when
the producing invocation filtered its terms, and — as long as the LRU cache
never evicts (total cards fit in `maxsize = 512`) — is present in the cache
from the card's `put` onward; consequently no two auto-define Cards from
DIFFERENT pipeline invocations share a normalized term.  (A single
invocation can still produce several same-normalized cards when one
analysis reports duplicate-normalizing terms, which is why the claim as
stated fails.) -/
theorem auto_define_cache_discipline (envs : List PipelineEnv) (st : SessionCaches)
    (hcap : st.termCache.entries.length + totalAutoLen (runPipelines st envs).2
        ≤ st.termCache.maxsize) :
    (∀ (env : PipelineEnv) (s : SessionCaches),
        ∀ u ∈ autoDefineTerms (run_pipeline env s).2.2,
          (s.termCache.contains u).1 = false)
      ∧ List.Pairwise (fun t1 t2 => ∀ u ∈ autoDefineTerms t1,
          ∀ v ∈ autoDefineTerms t2, normalise u ≠ normalise v)
          (runPipelines st envs).2
      ∧ (∀ trace ∈ (runPipelines st envs).2, ∀ u ∈ autoDefineTerms trace,
          normalise u ∈ (runPipelines st envs).1.termCache.entries.map Prod.fst) := by
  refine ⟨?_, (runs_ad_spec envs st hcap).2.2.2.2.2, (runs_ad_spec envs st hcap).2.2.2.1⟩
  intro env s u hu
  cases ha : env.analysis with
  | none =>
    have hnone : run_pipeline env s = (false, s, []) := by
      unfold run_pipeline
      rw [ha]
    rw [hnone] at hu
    simp [autoDefineTerms] at hu
  | some a =>
    have heq := run_pipeline_cards_eq env s a ha
    rw [heq.1] at hu
    exact termStep_contains_false env s.termCache a u hu

theorem rp_envAD : run_pipeline envAD stEmpty = (true, stAD1, actsAD) := by
  have h2 : deepResearchStep envAD aAD stAD1 = (stAD1, []) := by
    unfold deepResearchStep
    split
    · rename_i h
      exact absurd h (by norm_num [envAD, stAD1])
    · rfl
  show (true, (deepResearchStep envAD aAD stAD1).1,
      topicActs aAD ++ takeawayActs envAD.ts aAD ++ summaryActs aAD
        ++ actsAD ++ (deepResearchStep envAD aAD stAD1).2) = (true, stAD1, actsAD)
  rw [h2]
  rfl

theorem runs_envAD : runPipelines stEmpty [envAD] = (stAD1, [actsAD]) := by
  simp only [runPipelines]
  rw [rp_envAD]

/-- C3 counterexample — one analysis reporting `"Foo"` and `"foo"` slips
both past `filter_new` (the cache is consulted before any `put`), so one
invocation produces two auto-define cards with the same normalized term,
and the second card's term was already in the cache when it was produced. -/
theorem auto_define_duplicate_in_one_invocation :
    autoDefineTerms (run_pipeline envAD stEmpty).2.2 = ["Foo", "foo"]
      ∧ normalise "Foo" = normalise "foo"
      ∧ "Foo" ≠ "foo"
      ∧ ((stEmpty.termCache.put "Foo" ⟨"Foo", "d", "concept"⟩).contains "foo").1 = true := by
  refine ⟨?_, by decide, by decide, by decide⟩
  rw [(run_pipeline_cards_eq envAD stEmpty aAD rfl).1]
  rfl

/-- Witness for the C3 amended theorem on a concrete one-invocation run. -/
theorem auto_define_cache_discipline_witness :
    (stEmpty.termCache.entries.length + totalAutoLen (runPipelines stEmpty [envAD]).2
        ≤ stEmpty.termCache.maxsize)
      ∧ List.Pairwise (fun t1 t2 => ∀ u ∈ autoDefineTerms t1,
          ∀ v ∈ autoDefineTerms t2, normalise u ≠ normalise v)
          (runPipelines stEmpty [envAD]).2 := by
  have hcap : stEmpty.termCache.entries.length
      + totalAutoLen (runPipelines stEmpty [envAD]).2 ≤ stEmpty.termCache.maxsize := by
    rw [runs_envAD]
    decide
  exact ⟨hcap, (auto_define_cache_discipline [envAD] stEmpty hcap).2.1⟩

set_option maxRecDepth 100000 in
/-- C6 — evaluating the code at the failing input: `utterance[:1500]` keeps
the FIRST 1500 characters (all `'a'`), dropping the most recent text
(`'Z'`), so the slice differs from the last-1500-characters slice the spec
describes; and a failed `analyze_utterance` (modelled `analysis = none`)
makes `_run_pipeline` return `False` with no effects, which the scheduler
can detect and retry. -/
theorem analyze_truncates_head_not_tail :
    analyzeInput badTranscript = (⟨List.replicate 1500 'a'⟩ : String)
      ∧ (analyzeInput badTranscript == lastChars 1500 badTranscript) = false
      ∧ (∀ (st : SessionCaches) (o1 o2 : String → Option String) (ts : Nat) (now : ℚ),
          run_pipeline ⟨none, o1, o2, ts, now⟩ st = (false, st, [])) := by
  have hfirst : analyzeInput badTranscript = (⟨List.replicate 1500 'a'⟩ : String) := by
    show (⟨(List.replicate 1500 'a' ++ ['Z']).take 1500⟩ : String) = _
    congr 1
  have hlast : lastChars 1500 badTranscript
      = (⟨List.replicate 1499 'a' ++ ['Z']⟩ : String) := by
    show (⟨(List.replicate 1500 'a' ++ ['Z']).drop
        ((List.replicate 1500 'a' ++ ['Z']).length - 1500)⟩ : String) = _
    congr 1
  refine ⟨hfirst, ?_, ?_⟩
  · rw [hfirst, hlast]
    apply beq_eq_false_iff_ne.mpr
    intro h
    have hd : List.replicate 1500 'a' = List.replicate 1499 'a' ++ ['Z'] := by
      injection h
    have hz : ('Z' : Char) ∈ List.replicate 1499 'a' ++ ['Z'] :=
      List.mem_append_right _ (List.mem_singleton.mpr rfl)
    rw [← hd] at hz
    exact absurd (List.eq_of_mem_replicate hz) (by decide)
  · intro st o1 o2 ts now
    rfl

/-- C9 (amended) — a failed outbound socket write does NOT tear the session
down: `send_json` swallows the exception, drops the payload, and leaves the
session state exactly as it was; teardown happens only in the endpoint's
`finally` block when the inbound receive loop ends. -/
theorem send_json_swallows_failure (w : WriteOutcome) (s : CtrlState) :
    (send_json w s).2 = s
      ∧ ((send_json w s).1 = true ↔ w = .ok)
      ∧ (teardownSession s).session_active = false
      ∧ (teardownSession s).tasks_cancelled = true := by
  cases w <;> simp [send_json, teardownSession]

/-- C9 counterexample — after a failed write on a live session the state is
unchanged and differs from the torn-down state the claim requires. -/
theorem send_json_failure_no_teardown :
    (send_json .error ⟨true, false⟩).2 = (⟨true, false⟩ : CtrlState)
      ∧ ((send_json .error ⟨true, false⟩).2 == teardownSession ⟨true, false⟩) = false
      ∧ (send_json .error ⟨true, false⟩).2.session_active = true := by
  decide

end LecRef

